import Mathlib

/-!
Shallow embedding of `kradix.go`: a fixed fan-out radix tree (trie) with a
node pool, recursive insert / get / delete-with-prune, and a traversal that
reconstructs keys from a work stack.

Modelling conventions:
* keys are `List Nat` (the bytes of the Go `string`);
* the Go array `[128]*node[T]` is a `List (Option (Node T))` of length 128,
  and indexing it out of range — a Go runtime panic — makes the operation
  return `none` (every fallible operation returns an `Option`);
* the Go zero value `*new(T)` is `default` of an `Inhabited` instance;
* `sync.Pool` is modelled as a LIFO free list owned by the tree (one of its
  admissible behaviours for a single goroutine; `Get` may also allocate a
  fresh zero node when the list is empty, matching the pool's `New`);
* mutation is modelled by explicit state passing of the pool and the
  rebuilt nodes.
-/

set_option maxRecDepth 1000000

namespace Kradix

/-- Fan-out width of every node, `branchingFactor` in the source. -/
def branchingFactor : Nat := 128

/-- One trie node: `node[T]` from the source, with `terminal`, `value` and a
fixed-width array of optional children modelled as a list of length 128. -/
inductive Node (T : Type) where
  | mk (terminal : Bool) (value : T) (edges : List (Option (Node T))) : Node T

def Node.terminal {T : Type} : Node T → Bool
  | .mk b _ _ => b

def Node.value {T : Type} : Node T → T
  | .mk _ v _ => v

def Node.edges {T : Type} : Node T → List (Option (Node T))
  | .mk _ _ es => es

/-- The all-empty edge array of a zero node. -/
def emptyEdges (T : Type) : List (Option (Node T)) := List.replicate branchingFactor none

/-- A zero node, as produced by the pool's `New` function (`&node[T]{}`). -/
def freshNode (T : Type) [Inhabited T] : Node T := .mk false default (emptyEdges T)

/-- `RadixTree[T]` from the source: the root pointer (possibly nil) and the
node pool, modelled as a LIFO free list. -/
structure RadixTree (T : Type) where
  root : Option (Node T)
  pool : List (Node T)

/-- `New` from the source: a tree whose root is a zero node and whose pool is
empty. -/
def New (T : Type) [Inhabited T] : RadixTree T := ⟨some (freshNode T), []⟩

/-- `t.pool.Get()`: pop the most recently put node, or make a zero node when
the free list is empty. -/
def poolGet {T : Type} [Inhabited T] : List (Node T) → Node T × List (Node T)
  | [] => (freshNode T, [])
  | n :: rest => (n, rest)

mutual
/-- `release` from the source: recursively releases each present child (in
ascending slot order), clears every child slot, then puts the node itself on
the free list; its result is always the nil pointer.  Note that it does NOT
reset `terminal` or `value` of the nodes it puts. -/
def releaseNode {T : Type} : Node T → List (Node T) → List (Node T)
  | .mk b v es, pool => .mk b v (emptyEdges T) :: releaseEdges es pool
def releaseEdges {T : Type} : List (Option (Node T)) → List (Node T) → List (Node T)
  | [], pool => pool
  | none :: rest, pool => releaseEdges rest pool
  | some n :: rest, pool => releaseEdges rest (releaseNode n pool)
end

/-- `isLeaf` from the source: no child slot is occupied. -/
def isLeaf {T : Type} (n : Node T) : Bool := n.edges.all fun e => e.isNone

/-- The source's `if n == nil { n = t.pool.Get().(*node[T]) }` pattern, used
both for the current node and for an empty child slot: keep the node when the
pointer is non-nil, otherwise draw from the pool. -/
def acquire {T : Type} [Inhabited T] (n? : Option (Node T)) (pool : List (Node T)) :
    Node T × List (Node T) :=
  match n? with
  | none => poolGet pool
  | some n => (n, pool)

/-- `insert` from the source.  `none` as input plays the nil pointer; a
`none` result is the out-of-range panic on `n.edges[c]` with `c ≥ 128`. -/
def insertGo {T : Type} [Inhabited T] :
    Option (Node T) → List Nat → T → List (Node T) → Option (Node T × List (Node T))
  | n?, [], value, pool =>
    some (Node.mk true value (acquire n? pool).1.edges, (acquire n? pool).2)
  | n?, c :: rest, value, pool =>
    match (acquire n? pool).1.edges[c]? with
    | none => none
    | some slot =>
      match insertGo (some (acquire slot (acquire n? pool).2).1) rest value
          (acquire slot (acquire n? pool).2).2 with
      | none => none
      | some (child2, pool3) =>
        some (Node.mk (acquire n? pool).1.terminal (acquire n? pool).1.value
          ((acquire n? pool).1.edges.set c (some child2)), pool3)

/-- `Insert` from the source: reassigns the root to the rebuilt node. -/
def InsertGo {T : Type} [Inhabited T] (t : RadixTree T) (key : List Nat) (value : T) :
    Option (RadixTree T) :=
  match insertGo t.root key value t.pool with
  | none => none
  | some (n, pool) => some ⟨some n, pool⟩

/-- `get` from the source: descends one byte at a time; the nil check comes
before the empty-key check, so a nil node absorbs any remaining key. -/
def getGo {T : Type} : Option (Node T) → List Nat → Option (Option (Node T))
  | none, _ => some none
  | some n, [] => some (some n)
  | some n, c :: rest =>
    match n.edges[c]? with
    | none => none
    | some slot => getGo slot rest

/-- `Get` from the source: `(zero value, false)` when the walk ends at nil,
otherwise `(n.value, n.terminal)`. -/
def GetGo {T : Type} [Inhabited T] (t : RadixTree T) (key : List Nat) : Option (T × Bool) :=
  match getGo t.root key with
  | none => none
  | some none => some (default, false)
  | some (some n) => some (n.value, n.terminal)

/-- `delete` from the source.  The result triple is the rebuilt child pointer,
the pool, and the `deleted` flag threaded through the recursion (a `*bool` in
the source).  When the key is exhausted the node's terminal flag and value are
cleared and the WHOLE node (with its subtree) is released; on the way back up
a node that is non-terminal and childless is released too, but only when the
`deleted` flag is still false, and doing so sets the flag. -/
def deleteGo {T : Type} [Inhabited T] :
    Option (Node T) → List Nat → List (Node T) → Bool →
    Option (Option (Node T) × List (Node T) × Bool)
  | none, _, pool, deleted => some (none, pool, deleted)
  | some n, [], pool, _ =>
    some (none, releaseNode (Node.mk false default n.edges) pool, true)
  | some n, c :: rest, pool, deleted =>
    match n.edges[c]? with
    | none => none
    | some slot =>
      match deleteGo slot rest pool deleted with
      | none => none
      | some (child2, pool2, deleted2) =>
        match Node.mk n.terminal n.value (n.edges.set c child2) with
        | n2 =>
          if !n2.terminal && isLeaf n2 && !deleted2 then
            some (none, releaseNode n2 pool2, true)
          else
            some (some n2, pool2, deleted2)

/-- `Delete` from the source: reassigns the root and reports the flag. -/
def DeleteGo {T : Type} [Inhabited T] (t : RadixTree T) (key : List Nat) :
    Option (RadixTree T × Bool) :=
  match deleteGo t.root key t.pool false with
  | none => none
  | some (root2, pool2, deleted) => some (⟨root2, pool2⟩, deleted)

mutual
/-- Well-formedness: every edge array reachable from the node has length 128.
Every node the source ever builds satisfies this. -/
def wfNode {T : Type} : Node T → Bool
  | .mk _ _ es => (es.length == branchingFactor) && wfEdges es
def wfEdges {T : Type} : List (Option (Node T)) → Bool
  | [] => true
  | none :: rest => wfEdges rest
  | some n :: rest => wfNode n && wfEdges rest
end

/-- Well-formedness of a possibly-nil node pointer. -/
def wfOpt {T : Type} : Option (Node T) → Bool
  | none => true
  | some n => wfNode n

/-- Well-formedness of a whole tree state: root and every pooled node. -/
def wfTree {T : Type} (t : RadixTree T) : Bool :=
  wfOpt t.root && t.pool.all wfNode

mutual
/-- Structural node equality, standing in for Go pointer equality in the
traversal's key reconstruction (sound on trees whose subtrees are pairwise
distinct). -/
def beqNode {T : Type} [DecidableEq T] : Node T → Node T → Bool
  | .mk b1 v1 es1, .mk b2 v2 es2 => (b1 == b2) && decide (v1 = v2) && beqEdges es1 es2
def beqEdges {T : Type} [DecidableEq T] :
    List (Option (Node T)) → List (Option (Node T)) → Bool
  | [], [] => true
  | none :: r1, none :: r2 => beqEdges r1 r2
  | some n1 :: r1, some n2 :: r2 => beqNode n1 n2 && beqEdges r1 r2
  | _, _ => false
end

def beqOptNode {T : Type} [DecidableEq T] : Option (Node T) → Option (Node T) → Bool
  | none, none => true
  | some a, some b => beqNode a b
  | _, _ => false

/-- Helper for the key reconstruction of the source's path helper: for each
stack entry (given bottom-to-top, the bottom entry excluded) emit the first
slot index of that entry whose child equals the stack's top entry; a nil
entry is a nil dereference, hence a fault. -/
def entryBytes {T : Type} [DecidableEq T] (top : Option (Node T)) :
    List (Option (Node T)) → Option (List Nat)
  | [] => some []
  | none :: _ => none
  | some n :: rest =>
    match entryBytes top rest with
    | none => none
    | some bs =>
      some (match n.edges.findIdx? (fun e => beqOptNode e top) with
            | none => bs
            | some i => i :: bs)

/-- The source's path-reconstruction helper for `Traverse` (called `prefix`
there): iterates `stack[1:]` bottom-to-top and writes, for each entry, the
index of the first edge equal to the stack's top entry `stack[len-1]`.  On an
empty stack both `stack[1:]` and `stack[len(stack)-1]` are out-of-range
accesses, modelled as `none`.  Our stack list is top-first, so `stack[1:]`
bottom-to-top is `stack.dropLast.reverse`. -/
def keyOfStack {T : Type} [DecidableEq T] (stack : List (Option (Node T))) :
    Option (List Nat) :=
  match stack with
  | [] => none
  | top :: _ => entryBytes top (stack.dropLast.reverse)

/-- Outcome of a traversal run: either a fault (panic) after some visits, or
normal completion with the ordered list of visits. -/
inductive TravResult (T : Type) where
  | fault (visited : List (List Nat × T))
  | ok (visited : List (List Nat × T))

/-- The present children of a node in ascending slot order, as collected by
the source's `Traverse` before spawning. -/
def childList {T : Type} (n : Node T) : List (Node T) := n.edges.filterMap id

/-- The loop of `Traverse`, embedded under the sequentially consistent
schedule in which each spawned goroutine runs to completion at its spawn
point (one admissible schedule of the source, which shares the mutable
`stack` slice between the loop and its goroutines).  Under that schedule a
spawned goroutine immediately appends the collected children to the stack,
and the `WaitGroup` operations have no observable effect.  The stack is
top-first, so appending children c0..ck to the slice's end then popping from
the end is pushing `(cs.map some).reverse` onto the front.  `fuel` bounds the
iteration count; `none` means the fuel ran out (never the program's own
behaviour when the fuel exceeds the node count). -/
def travGo {T : Type} [DecidableEq T] :
    Nat → List (Option (Node T)) → List (List Nat × T) → Option (TravResult T)
  | 0, _, _ => none
  | _ + 1, [], acc => some (.ok acc)
  | fuel + 1, none :: stack, acc => travGo fuel stack acc
  | fuel + 1, some n :: stack, acc =>
    match (if n.terminal then (keyOfStack stack).map (fun key => acc ++ [(key, n.value)])
           else some acc) with
    | none => some (.fault acc)
    | some acc2 =>
      match childList n with
      | [] => travGo fuel stack acc2
      | cs => travGo fuel ((cs.map some).reverse ++ stack) acc2

/-- `Traverse` from the source under the schedule described at `travGo`: the
walk starts from a stack holding only the root. -/
def TraverseGo {T : Type} [DecidableEq T] (t : RadixTree T) (fuel : Nat) :
    Option (TravResult T) :=
  travGo fuel [t.root] []

/-! ## Shared helper lemmas -/

theorem insertGo_getGo {T : Type} [Inhabited T] (k : List Nat) :
    ∀ (n? : Option (Node T)) (v : T) (pool pool' : List (Node T)) (n' : Node T),
      insertGo n? k v pool = some (n', pool') →
      ∃ m : Node T, getGo (some n') k = some (some m) ∧ m.terminal = true ∧ m.value = v := by
  induction k with
  | nil =>
    intro n? v pool pool' n' h
    simp only [insertGo, Option.some.injEq, Prod.mk.injEq] at h
    obtain ⟨hn, -⟩ := h
    subst hn
    exact ⟨_, rfl, rfl, rfl⟩
  | cons c rest ih =>
    intro n? v pool pool' n' h
    simp only [insertGo] at h
    split at h
    · exact absurd h (by simp)
    case _ slot hslot =>
      split at h
      · exact absurd h (by simp)
      case _ child2 pool3 hrec =>
        simp only [Option.some.injEq, Prod.mk.injEq] at h
        obtain ⟨hn, -⟩ := h
        subst hn
        have hlt : c < (acquire n? pool).1.edges.length := by
          rcases List.getElem?_eq_some.mp hslot with ⟨hl, -⟩
          exact hl
        obtain ⟨m, hget, hterm, hval⟩ := ih _ v _ pool3 child2 hrec
        refine ⟨m, ?_, hterm, hval⟩
        simp only [getGo, Node.edges]
        rw [List.getElem?_set_self (by simpa using hlt)]
        exact hget

theorem InsertGo_GetGo {T : Type} [Inhabited T] {t t1 : RadixTree T} {k : List Nat} {v : T}
    (h : InsertGo t k v = some t1) : GetGo t1 k = some (v, true) := by
  unfold InsertGo at h
  split at h
  · exact absurd h (by simp)
  case _ n pool heq =>
    simp only [Option.some.injEq] at h
    subst h
    obtain ⟨m, hget, hterm, hval⟩ := insertGo_getGo k t.root v t.pool pool n heq
    simp only [GetGo, hget, hval, hterm]

theorem wfEdges_replicate {T : Type} :
    ∀ m, wfEdges (List.replicate m (none : Option (Node T))) = true := by
  intro m
  induction m with
  | zero => rfl
  | succ m ih => simpa [List.replicate, wfEdges] using ih

theorem wfNode_freshNode {T : Type} [Inhabited T] : wfNode (freshNode T) = true := by
  simp only [freshNode, wfNode, emptyEdges]
  rw [List.length_replicate, wfEdges_replicate]
  simp

theorem wfNode_length {T : Type} {n : Node T} (h : wfNode n = true) :
    n.edges.length = branchingFactor ∧ wfEdges n.edges = true := by
  cases n with
  | mk b v es =>
    simp only [wfNode, Bool.and_eq_true, beq_iff_eq] at h
    exact ⟨h.1, h.2⟩

theorem wfEdges_slot {T : Type} :
    ∀ (es : List (Option (Node T))) (c : Nat) (slot : Option (Node T)),
      wfEdges es = true → es[c]? = some slot → wfOpt slot = true := by
  intro es
  induction es with
  | nil => intro c slot _ h2; simp at h2
  | cons e rest ih =>
    intro c slot h1 h2
    have h1' : wfOpt e = true ∧ wfEdges rest = true := by
      cases e <;> simp only [wfEdges, wfOpt, Bool.and_eq_true] at h1 ⊢ <;> simp_all
    cases c with
    | zero =>
      simp only [List.getElem?_cons_zero, Option.some.injEq] at h2
      subst h2
      exact h1'.1
    | succ c' =>
      rw [List.getElem?_cons_succ] at h2
      exact ih c' slot h1'.2 h2

theorem wf_acquire {T : Type} [Inhabited T] {n? : Option (Node T)} {pool : List (Node T)}
    (h1 : wfOpt n? = true) (h2 : pool.all wfNode = true) :
    wfNode (acquire n? pool).1 = true ∧ (acquire n? pool).2.all wfNode = true := by
  cases n? with
  | some n => exact ⟨h1, h2⟩
  | none =>
    cases pool with
    | nil => exact ⟨wfNode_freshNode, rfl⟩
    | cons p rest =>
      simp only [List.all_cons, Bool.and_eq_true] at h2
      exact ⟨h2.1, by simp [acquire, poolGet, h2.2]⟩

theorem getGo_isSome {T : Type} (k : List Nat) :
    ∀ (n? : Option (Node T)), wfOpt n? = true → (∀ c ∈ k, c < branchingFactor) →
      (getGo n? k).isSome = true := by
  induction k with
  | nil => intro n? _ _; cases n? <;> rfl
  | cons c rest ih =>
    intro n? h1 h2
    cases n? with
    | none => rfl
    | some n =>
      obtain ⟨hlen, hwfe⟩ := wfNode_length h1
      have hc : c < n.edges.length := by rw [hlen]; exact h2 c (by simp)
      obtain ⟨slot, hslot⟩ : ∃ slot, n.edges[c]? = some slot :=
        ⟨n.edges[c], List.getElem?_eq_getElem hc⟩
      simp only [getGo, hslot]
      exact ih slot (wfEdges_slot n.edges c slot hwfe hslot)
        (fun b hb => h2 b (List.mem_cons_of_mem c hb))

theorem insertGo_isSome {T : Type} [Inhabited T] (k : List Nat) :
    ∀ (n? : Option (Node T)) (v : T) (pool : List (Node T)),
      wfOpt n? = true → pool.all wfNode = true → (∀ c ∈ k, c < branchingFactor) →
      (insertGo n? k v pool).isSome = true := by
  induction k with
  | nil => intro n? v pool _ _ _; rfl
  | cons c rest ih =>
    intro n? v pool h1 h2 h3
    obtain ⟨ha1, ha2⟩ := wf_acquire h1 h2
    obtain ⟨hlen, hwfe⟩ := wfNode_length ha1
    have hc : c < (acquire n? pool).1.edges.length := by rw [hlen]; exact h3 c (by simp)
    obtain ⟨slot, hslot⟩ : ∃ slot, (acquire n? pool).1.edges[c]? = some slot :=
      ⟨_, List.getElem?_eq_getElem hc⟩
    have hwslot : wfOpt slot = true := wfEdges_slot _ c slot hwfe hslot
    obtain ⟨hb1, hb2⟩ := wf_acquire hwslot ha2
    have hrec := ih (some (acquire slot (acquire n? pool).2).1) v
      (acquire slot (acquire n? pool).2).2 hb1 hb2 (fun b hb => h3 b (List.mem_cons_of_mem c hb))
    simp only [insertGo, hslot]
    obtain ⟨pr, hpr⟩ := Option.isSome_iff_exists.mp hrec
    rw [hpr]
    cases pr
    rfl

theorem deleteGo_isSome {T : Type} [Inhabited T] (k : List Nat) :
    ∀ (n? : Option (Node T)) (pool : List (Node T)) (deleted : Bool),
      wfOpt n? = true → (∀ c ∈ k, c < branchingFactor) →
      (deleteGo n? k pool deleted).isSome = true := by
  induction k with
  | nil => intro n? pool deleted _ _; cases n? <;> rfl
  | cons c rest ih =>
    intro n? pool deleted h1 h2
    cases n? with
    | none => rfl
    | some n =>
      obtain ⟨hlen, hwfe⟩ := wfNode_length h1
      have hc : c < n.edges.length := by rw [hlen]; exact h2 c (by simp)
      obtain ⟨slot, hslot⟩ : ∃ slot, n.edges[c]? = some slot :=
        ⟨_, List.getElem?_eq_getElem hc⟩
      have hrec := ih slot pool deleted (wfEdges_slot _ c slot hwfe hslot)
        (fun b hb => h2 b (List.mem_cons_of_mem c hb))
      simp only [deleteGo, hslot]
      obtain ⟨pr, hpr⟩ := Option.isSome_iff_exists.mp hrec
      rw [hpr]
      obtain ⟨child2, pool2, deleted2⟩ := pr
      dsimp only
      split <;> rfl

/-! ## Concrete states used by the per-claim evaluations -/

/-- The tree of the spec's concrete scenario after inserting the keys
"a"→1, "ab"→2, "abc"→3 (byte lists [97], [97,98], [97,98,99]) and then
deleting "ab". -/
def scenarioTree : Option (RadixTree Nat) :=
  (InsertGo (New Nat) [97] 1).bind fun t =>
  (InsertGo t [97, 98] 2).bind fun t =>
  (InsertGo t [97, 98, 99] 3).bind fun t =>
  (DeleteGo t [97, 98]).map Prod.fst

/-- The tree after inserting only "ab"→2 and then deleting "ab". -/
def abInsertDelete : Option (RadixTree Nat) :=
  (InsertGo (New Nat) [97, 98] 2).bind fun t => (DeleteGo t [97, 98]).map Prod.fst

/-- The tree after inserting "ab"→2, deleting "a" (which releases the node
for "ab" into the pool with its terminal flag and value still set) and then
inserting "xyz"→9, which recycles that node as the interior node for "xy". -/
def recycleState : Option (RadixTree Nat) :=
  (InsertGo (New Nat) [97, 98] 2).bind fun t =>
  (DeleteGo t [97]).bind fun p =>
  InsertGo p.1 [120, 121, 122] 9

/-- The tree holding exactly the keys "ab"→2 and "cd"→4. -/
def twoKeyTree : Option (RadixTree Nat) :=
  (InsertGo (New Nat) [97, 98] 2).bind fun t => InsertGo t [99, 100] 4

/-! ## The claims -/

/-- C1: the claim says that after inserting "a"→1, "ab"→2, "abc"→3 and
deleting "ab", Get "ab" is not found while Get "a" = (1, true) and
Get "abc" = (3, true).  Evaluating the embedding at exactly that input shows
Get "abc" = (0, false) instead: `delete` releases the entire subtree rooted
at the node of the deleted key, so the longer key "abc" is lost.  The other
two lookups behave as claimed. -/
theorem c1_delete_releases_whole_subtree :
    (scenarioTree.map fun t => (GetGo t [97, 98], GetGo t [97], GetGo t [97, 98, 99])) =
      some (some (0, false), some (1, true), some (0, false)) := rfl

/-- C2: the claim says Delete k returns true iff k was stored as a terminal
key beforehand.  On the fresh tree, Get "a" reports not-found, yet Delete "a"
returns true: the pruning branch of `delete` fires for the never-stored key
(the root is non-terminal and childless after the failed descent) and sets
the deleted flag. -/
theorem c2_delete_true_for_absent_key :
    GetGo (New Nat) [97] = some (0, false) ∧
    (DeleteGo (New Nat) [97]).map Prod.snd = some true := ⟨rfl, rfl⟩

/-- C3: the claim says no reachable node other than the root is both
non-terminal and childless after any Insert/Delete sequence.  After
Insert "ab" then Delete "ab", the node reached by the path "a" is still
reachable and is non-terminal with no children: the pruning guard
`!*deleted` in `delete` is false on the way back up from a successful
deletion, so the dead interior node is never pruned. -/
theorem c3_dangling_nonterminal_leaf_persists :
    (abInsertDelete.bind fun t =>
      (getGo t.root [97]).map fun r => r.map fun n => (n.terminal, isLeaf n)) =
      some (some (false, true)) := rfl

/-- C4: the claim says the root is never released, including on Delete of the
empty key.  Delete "" on the fresh tree hits the key-exhausted branch of
`delete` at the root itself, which releases the root and returns nil, so the
tree's root reference becomes empty (and the call even reports true). -/
theorem c4_root_released_on_delete :
    ((DeleteGo (New Nat) []).map fun p => (p.1.root.isNone, p.2)) = some (true, true) := rfl

/-- C5: the claim says deleting a key that is not stored as terminal returns
false and leaves the tree unchanged.  Starting from the tree obtained by
Insert "ab" then Delete "ab", deleting the absent key "ax" returns true, and
the node previously reachable at path "a" (present before, `isSome = true`)
is gone afterwards (`isSome = false`): the call both misreports and mutates
the structure. -/
theorem c5_absent_key_delete_not_noop :
    (abInsertDelete.bind fun t => (DeleteGo t [97, 120]).map fun p =>
      (p.2, (getGo p.1.root [97]).map Option.isSome, (getGo t.root [97]).map Option.isSome)) =
      some (true, some false, some true) := rfl

/-- C6: the claim says every node obtained from the pool during Insert is
reset (terminal false, zero value, empty slots) when installed.  After
Insert "ab"→2, Delete "a" releases the "ab" node into the pool WITHOUT
clearing its terminal flag or value; the subsequent Insert "xyz"→9 recycles
it as the interior node for the path "xy", so the never-inserted key "xy"
reads back as (2, true) while the really inserted "xyz" is (9, true). -/
theorem c6_recycled_node_installed_dirty :
    (recycleState.bind fun t => GetGo t [120, 121]) = some (2, true) ∧
    (recycleState.bind fun t => GetGo t [120, 121, 122]) = some (9, true) := ⟨rfl, rfl⟩

/-- C7: the claim says Traverse visits exactly the stored (key, value) pairs
with keys reconstructed from the root-to-node path, under any schedule of
the spawned work.  Running the embedded traversal (under the admissible
schedule where each spawned task runs at its spawn point) on the tree
holding exactly "ab"→2 and "cd"→4 first visits the pair ([], 4) — the key of
the "cd" node is reconstructed as the empty byte string, because the helper
reads the pending-work stack instead of the root-to-node path — and then
faults on an out-of-range stack access while visiting the "ab" node. -/
theorem c7_traverse_garbled_key_and_fault :
    (twoKeyTree.map fun t => TraverseGo t 20) =
      some (some (TravResult.fault [([], 4)])) := rfl

/-- C8 (counterexample to the claim as stated): the claim says Traverse also
completes without fault whenever every key byte is below the fan-out width
128.  The single stored key "a" = [97] is within range, yet the traversal
faults (out-of-range stack slice in the key-reconstruction helper) before
visiting anything. -/
theorem c8_traverse_faults_on_inrange_key :
    (∀ c ∈ [97], c < branchingFactor) ∧
    ((InsertGo (New Nat) [97] 1).map fun t => TraverseGo t 10) =
      some (some (TravResult.fault [])) := ⟨by decide, rfl⟩

/-- C8 (amended): for every well-formed tree state and every key all of whose
bytes are below the fan-out width 128, Insert, Get and Delete complete
without any out-of-range access; a key byte at or above 128 is a
precondition violation that causes an out-of-bounds access (e.g. Get on the
fresh tree with byte 200 faults).  The totality part does NOT extend to
Traverse (see the counterexample theorem). -/
theorem c8_mutation_ops_total {T : Type} [Inhabited T] (t : RadixTree T) (k : List Nat) (v : T)
    (hwf : wfTree t = true) (hk : ∀ c ∈ k, c < branchingFactor) :
    ((InsertGo t k v).isSome = true ∧ (GetGo t k).isSome = true ∧
      (DeleteGo t k).isSome = true) ∧
    GetGo (New Nat) [200] = none := by
  simp only [wfTree, Bool.and_eq_true] at hwf
  refine ⟨⟨?_, ?_, ?_⟩, rfl⟩
  · have h := insertGo_isSome k t.root v t.pool hwf.1 hwf.2 hk
    obtain ⟨pr, hpr⟩ := Option.isSome_iff_exists.mp h
    obtain ⟨n, pool⟩ := pr
    simp [InsertGo, hpr]
  · have h := getGo_isSome k t.root hwf.1 hk
    obtain ⟨r, hr⟩ := Option.isSome_iff_exists.mp h
    cases r <;> simp [GetGo, hr]
  · have h := deleteGo_isSome k t.root t.pool false hwf.1 hk
    obtain ⟨pr, hpr⟩ := Option.isSome_iff_exists.mp h
    obtain ⟨r2, p2, d2⟩ := pr
    simp [DeleteGo, hpr]

/-- Witness for C8's amended theorem at the fresh tree and key "a". -/
theorem c8_mutation_ops_total_witness :
    ((InsertGo (New Nat) [97] 5).isSome = true ∧ (GetGo (New Nat) [97]).isSome = true ∧
      (DeleteGo (New Nat) [97]).isSome = true) ∧
    GetGo (New Nat) [200] = none :=
  c8_mutation_ops_total (New Nat) [97] 5 (by decide) (by decide)

/-- C9: for every tree state, every key and every value, a successful
Insert(k, v) followed immediately by Get(k) returns (v, true); moreover a
second successful Insert of the same key with another value overwrites, so
the latest value is returned. -/
theorem c9_insert_get_roundtrip {T : Type} [Inhabited T] (t t1 : RadixTree T) (k : List Nat)
    (v : T) (h : InsertGo t k v = some t1) :
    GetGo t1 k = some (v, true) ∧
    ∀ (t2 : RadixTree T) (v2 : T), InsertGo t1 k v2 = some t2 → GetGo t2 k = some (v2, true) :=
  ⟨InsertGo_GetGo h, fun _ _ h2 => InsertGo_GetGo h2⟩

/-- Witness for C9 at the fresh tree, key "a" and value 5. -/
theorem c9_insert_get_roundtrip_witness :
    GetGo ((InsertGo (New Nat) [97] 5).getD (New Nat)) [97] = some (5, true) :=
  (c9_insert_get_roundtrip (New Nat) _ [97] 5 rfl).1

/-- C10: a tree whose root reference is empty stays usable: Get returns
(zero value, false) for EVERY key (the nil check precedes any indexing, so
this holds even for out-of-range bytes), and a successful Insert installs a
node as the new root, after which the inserted key reads back. -/
theorem c10_nil_root_get_and_reinsert {T : Type} [Inhabited T] (pool : List (Node T))
    (k : List Nat) (v : T) :
    GetGo (⟨none, pool⟩ : RadixTree T) k = some (default, false) ∧
    ∀ t1 : RadixTree T, InsertGo (⟨none, pool⟩ : RadixTree T) k v = some t1 →
      t1.root.isSome = true ∧ GetGo t1 k = some (v, true) := by
  have hnone : getGo (T := T) none k = some none := by cases k <;> rfl
  refine ⟨by simp only [GetGo, hnone], fun t1 h => ⟨?_, InsertGo_GetGo h⟩⟩
  unfold InsertGo at h
  split at h
  · exact absurd h (by simp)
  case _ n pool2 heq =>
    simp only [Option.some.injEq] at h
    subst h
    rfl

/-- Witness for C10 with an empty pool, key "a" and value 7. -/
theorem c10_nil_root_get_and_reinsert_witness :
    GetGo (⟨none, []⟩ : RadixTree Nat) [97] = some (default, false) ∧
    (((InsertGo (⟨none, []⟩ : RadixTree Nat) [97] 7).getD (New Nat)).root.isSome = true ∧
      GetGo ((InsertGo (⟨none, []⟩ : RadixTree Nat) [97] 7).getD (New Nat)) [97] =
        some (7, true)) :=
  ⟨(c10_nil_root_get_and_reinsert [] [97] 7).1,
    (c10_nil_root_get_and_reinsert [] [97] 7).2 _ rfl⟩

end Kradix
